import Mathlib

/-
Verification of the reconciliation and incremental indexing engine of the
sally-sales-enablement repository.

The definitions below are a shallow embedding of the JavaScript sources:
  scripts/initial-index.js   (class IntelligentSync: scanGoogleDrive,
    loadPineconeState, filterFiles, detectDuplicates, normalizeName,
    isSimilarName, classifyChanges, chunkText, createVectors,
    uploadToPinecone, deleteFileVectors, indexFile, run)
  scripts/sync-dry-run-detailed.js (class DetailedDryRun: the same
    analysis-stage functions, textually identical to IntelligentSync)
  the catalog syncer (class PineconeCatalogSyncer: getPineconeFiles,
    compareFiles, deleteRemovedFiles)

Modelling conventions, used consistently below:
  - Timestamps are natural numbers counting milliseconds.  A metadata field
    that the code stores as a date-only string (YYYY-MM-DD) is modelled as
    the millisecond timestamp of that days midnight, so JS string
    comparison of date strings and Date comparison both become Nat
    comparison, and appending T00:00:00Z is the identity on such values.
  - JS truthiness of optional metadata is modelled with Option: a missing
    field is none.  Numeric fields where the code relies on 0 being falsy
    keep that check explicitly.  Empty strings (falsy in JS) are modelled
    as none.
  - Regex operations on file names are implemented by a small explicit
    matcher over List Char that supports exactly the constructs the
    sources use: case-insensitive literals, the classes for whitespace and
    digits with * or + repetition, a single letter or digit, the group
    form dot-digits repeated, and word boundaries at the edges of patterns
    whose edge characters are word characters.  Replacement is global,
    leftmost, non-overlapping, continuing after each match, which is the
    JS semantics for replace with the g flag on these patterns.
-/

set_option maxRecDepth 20000

namespace Sally

/-- ASCII whitespace; models the JS regex class for whitespace restricted
to the characters that occur in repository file names. -/
def isWs (c : Char) : Bool :=
  c == ' ' || c == '\t' || c == '\n' || c == '\r'

/-- Decimal digit test, the JS regex digit class. -/
def isDigitC (c : Char) : Bool :=
  '0' ≤ c && c ≤ '9'

/-- ASCII letter test, used for the case-insensitive single-letter class. -/
def isAlphaC (c : Char) : Bool :=
  ('a' ≤ c && c ≤ 'z') || ('A' ≤ c && c ≤ 'Z')

/-- JS regex word character (letters, digits, underscore), used for the
word-boundary checks. -/
def isWordChar (c : Char) : Bool :=
  isAlphaC c || isDigitC c || c == '_'

/-- Case-insensitive character equality (JS regex flag i). -/
def eqCI (a b : Char) : Bool :=
  a.toLower == b.toLower

/-- Drop a literal from the front of a string, case-insensitively,
returning the rest on success. -/
def stripPrefixCI : List Char → List Char → Option (List Char)
  | [], cs => some cs
  | _ :: _, [] => none
  | p :: ps, c :: cs => if eqCI p c then stripPrefixCI ps cs else none

/-- Exact (case-sensitive) prefix test, used for JS String.includes. -/
def isPrefixExact : List Char → List Char → Bool
  | [], _ => true
  | _ :: _, [] => false
  | a :: as, b :: bs => a == b && isPrefixExact as bs

/-- JS String.includes: the needle occurs contiguously in the haystack. -/
def containsSeq (needle : List Char) : List Char → Bool
  | [] => needle.isEmpty
  | b :: bs => isPrefixExact needle (b :: bs) || containsSeq needle bs

theorem length_dropWhile_le (p : Char → Bool) (l : List Char) :
    (l.dropWhile p).length ≤ l.length := by
  induction l with
  | nil => simp [List.dropWhile]
  | cons a l ih =>
    simp only [List.dropWhile]
    split
    · exact Nat.le_succ_of_le ih
    · exact Nat.le_refl _

/-- Consume the regex group dot-digits repeated zero or more times,
greedily (the form used by the version-number patterns).  The fuel
argument only bounds the number of iterations; each iteration consumes
at least two characters, so the string length is always enough. -/
def eatDotDigitsF : Nat → List Char → List Char
  | 0, s => s
  | fuel + 1, s =>
    match s with
    | '.' :: c :: rest =>
      if isDigitC c then eatDotDigitsF fuel (rest.dropWhile isDigitC)
      else s
    | _ => s

def eatDotDigits (s : List Char) : List Char :=
  eatDotDigitsF s.length s

/-- Pattern tokens: the regex constructs the repository sources use. -/
inductive PatTok where
  | lit (cs : List Char)
  | ws1
  | ws0
  | digits1
  | digits0
  | alpha1
  | digit1
  | dotDigitsStar
deriving DecidableEq

/-- Match a token list at the front of a string, greedily; returns the
rest of the string.  Greedy matching with no backtracking is exact for
the source patterns because in each of them consecutive repeated classes
and the following literal are disjoint. -/
def matchToks : List PatTok → List Char → Option (List Char)
  | [], cs => some cs
  | t :: ts, cs =>
    match t, cs with
    | .lit l, _ => (stripPrefixCI l cs).bind (matchToks ts)
    | .ws1, c :: rest => if isWs c then matchToks ts (rest.dropWhile isWs) else none
    | .ws1, [] => none
    | .ws0, _ => matchToks ts (cs.dropWhile isWs)
    | .digits1, c :: rest => if isDigitC c then matchToks ts (rest.dropWhile isDigitC) else none
    | .digits1, [] => none
    | .digits0, _ => matchToks ts (cs.dropWhile isDigitC)
    | .alpha1, c :: rest => if isAlphaC c then matchToks ts rest else none
    | .alpha1, [] => none
    | .digit1, c :: rest => if isDigitC c then matchToks ts rest else none
    | .digit1, [] => none
    | .dotDigitsStar, _ => matchToks ts (eatDotDigits cs)

/-- A pattern: token list with optional word boundaries at both ends.
All source patterns that use a boundary start and end with a word
character, so each boundary reduces to requiring a non-word (or absent)
character on the outside. -/
structure Pat where
  lb : Bool
  toks : List PatTok
  rb : Bool
deriving DecidableEq

/-- Left word-boundary check against the character before the match. -/
def okLeft (lb : Bool) (prev : Option Char) : Bool :=
  !lb || (match prev with | none => true | some c => !isWordChar c)

/-- Right word-boundary check against the first unmatched character. -/
def okRight (rb : Bool) (rest : List Char) : Bool :=
  !rb || (match rest.head? with | none => true | some c => !isWordChar c)

/-- Try to match a pattern at the current position; prev is the character
immediately before the position.  Returns the matched text and the rest. -/
def tryMatchAt (p : Pat) (prev : Option Char) (cs : List Char) :
    Option (List Char × List Char) :=
  if okLeft p.lb prev then
    match matchToks p.toks cs with
    | some rest =>
      if okRight p.rb rest then
        some (cs.take (cs.length - rest.length), rest)
      else none
    | none => none
  else none

/-- Global leftmost replacement, continuing after each match: the JS
semantics of String.replace with the g flag for the source patterns
(each of which matches at least one character).  The fuel argument only
bounds the number of scan steps; every step consumes at least one
character, so the string length is always enough. -/
def replaceScanF (p : Pat) (repl : List Char) :
    Nat → Option Char → List Char → List Char
  | 0, _, cs => cs
  | _ + 1, _, [] => []
  | fuel + 1, prev, c :: rest =>
    match tryMatchAt p prev (c :: rest) with
    | some (matched, after) =>
      if after.length < rest.length + 1 then
        repl ++ replaceScanF p repl fuel
          (match matched.getLast? with | some x => some x | none => prev) after
      else
        c :: replaceScanF p repl fuel (some c) rest
    | none => c :: replaceScanF p repl fuel (some c) rest

def replacePat (p : Pat) (repl : List Char) (cs : List Char) : List Char :=
  replaceScanF p repl cs.length none cs

/-- Regex test: does the pattern match anywhere in the string. -/
def searchFrom (p : Pat) (prev : Option Char) : List Char → Bool
  | [] => false
  | c :: rest =>
    (tryMatchAt p prev (c :: rest)).isSome || searchFrom p (some c) rest

def searchPat (p : Pat) (cs : List Char) : Bool :=
  searchFrom p none cs

/-- Case-insensitive suffix test. -/
def endsWithCI (suf s : List Char) : Bool :=
  if suf.length ≤ s.length then
    (stripPrefixCI suf (s.drop (s.length - suf.length))).isSome
  else false

/-- The alternatives of the anchored extension-stripping regex of
normalizeName in the sources: dot followed by pdf, pptx?, docx?, xlsx?,
gslides?, gdocs? or gsheet?, at the end of the name, case-insensitive.
Longer variants are listed before their shorter stems, matching the
greedy optional final letter. -/
def extSuffixes : List (List Char) :=
  [".pdf".data, ".pptx".data, ".ppt".data, ".docx".data, ".doc".data,
   ".xlsx".data, ".xls".data, ".gslides".data, ".gslide".data,
   ".gdocs".data, ".gdoc".data, ".gsheet".data, ".gshee".data]

/-- Strip a recognised extension from the end of a name (the first
replace of both normalizeName variants; anchored, so at most one strip,
and the alternatives cannot overlap as terminal suffixes). -/
def stripExt (s : List Char) : List Char :=
  match extSuffixes.find? (fun suf => endsWithCI suf s) with
  | some suf => s.take (s.length - suf.length)
  | none => s

/-- Replace every maximal run of characters of a class by one space:
the separator-collapsing replaces of the normalizeName variants. -/
def collapseRuns (inCls : Char → Bool) : List Char → List Char
  | [] => []
  | c :: rest =>
    if inCls c then
      match rest with
      | [] => [' ']
      | d :: _ =>
        if inCls d then collapseRuns inCls rest
        else ' ' :: collapseRuns inCls rest
    else c :: collapseRuns inCls rest

/-- JS String.trim on both ends. -/
def trimChars (s : List Char) : List Char :=
  ((s.dropWhile isWs).reverse.dropWhile isWs).reverse

/-- Separator class of detectDuplicates normalizeName: underscore,
hyphen or whitespace. -/
def isSepOrWs (c : Char) : Bool :=
  c == '_' || c == '-' || isWs c

/-- Separator class of the classifier normalizeName: underscore, hyphen
or colon. -/
def isSepClass (c : Char) : Bool :=
  c == '_' || c == '-' || c == ':'

def copyPat : Pat := ⟨false, [.lit "(copy".data, .ws0, .digits0, .lit ")".data], false⟩
def versionNumPat : Pat := ⟨false, [.ws1, .lit "version".data, .ws1, .digits1], false⟩
def vLetterPat : Pat := ⟨false, [.ws1, .lit "v".data, .alpha1], true⟩
def vNumPat : Pat := ⟨false, [.ws1, .lit "v".data, .digits1, .dotDigitsStar], false⟩
def uvNumPat : Pat := ⟨false, [.ws1, .lit "_v".data, .digits1, .dotDigitsStar], false⟩
def yearPat : Pat := ⟨true, [.lit "202".data, .digit1], true⟩
def qitPat : Pat :=
  ⟨true, [.lit "quarterly".data, .ws1, .lit "industry".data, .ws1, .lit "trends".data], true⟩
def tsorePat : Pat :=
  ⟨true, [.lit "the".data, .ws1, .lit "state".data, .ws1, .lit "of".data, .ws1,
    .lit "retail".data, .ws1, .lit "ecommerce".data], true⟩
def itPat : Pat := ⟨true, [.lit "industry".data, .ws0, .lit "trends".data], true⟩
def genAiPat : Pat := ⟨true, [.lit "gen".data, .ws1, .lit "ai".data], true⟩
def aigoPat : Pat :=
  ⟨true, [.lit "ai".data, .ws1, .lit "goal".data, .ws1, .lit "optimizer".data], true⟩

/-- The normalizeName closure inside detectDuplicates (both scripts):
strip extension, collapse underscore/hyphen/whitespace runs to a space,
drop copy markers and version words, lower-case, trim. -/
def normalizeDedupL (s : List Char) : List Char :=
  let s1 := stripExt s
  let s2 := collapseRuns isSepOrWs s1
  let s3 := replacePat copyPat [] s2
  let s4 := replacePat versionNumPat [] s3
  trimChars (s4.map Char.toLower)

def normalizeDedup (s : String) : String :=
  ⟨normalizeDedupL s.data⟩

/-- The method normalizeName of IntelligentSync and DetailedDryRun: the
full alias-aware normalization used by the fuzzy matcher. -/
def normalizeNameL (s : List Char) : List Char :=
  let s1 := stripExt s
  let s2 := collapseRuns isSepClass s1
  let s3 := replacePat copyPat [] s2
  let s4 := replacePat vLetterPat [] s3
  let s5 := replacePat vNumPat [] s4
  let s6 := replacePat uvNumPat [] s5
  let s7 := replacePat versionNumPat [] s6
  let s8 := replacePat qitPat "state of retail ecommerce".data s7
  let s9 := replacePat tsorePat "state of retail ecommerce".data s8
  let s10 := replacePat itPat "state of retail ecommerce".data s9
  let s11 := replacePat genAiPat "generative ai".data s10
  let s12 := replacePat aigoPat "aigo".data s11
  let s13 := replacePat yearPat [] s12
  trimChars (collapseRuns isWs (s13.map Char.toLower))

def normalizeName (s : String) : String :=
  ⟨normalizeNameL s.data⟩

/-- The method isSimilarName: equal normalized names always match; when
either normalized name has length at least 30, containment in either
direction also matches. -/
def isSimilarName (a b : String) : Bool :=
  let n1 := normalizeNameL a.data
  let n2 := normalizeNameL b.data
  if n1 == n2 then true
  else if 30 ≤ n1.length ∨ 30 ≤ n2.length then
    containsSeq n2 n1 || containsSeq n1 n2
  else false

/-- A file of the Drive snapshot, as produced by scanGoogleDrive: the
fields of the Drive files.list response used by the engine.  Timestamps
are millisecond values; version is the Drive revision counter; size and
md5Checksum are absent for native Google formats. -/
structure DriveFile where
  fid : String
  name : String
  mimeType : String
  modifiedTime : Nat
  createdTime : Nat
  version : Option Nat
  md5Checksum : Option String
  size : Option Int
deriving DecidableEq

/-- The name filters of filterFiles (shouldSkipFile): first matching rule
wins, returning its reason. -/
def caseStudyPat : Pat := ⟨false, [.lit "case".data, .ws0, .lit "study".data], false⟩

def containsCI (needle : String) (hay : String) : Bool :=
  searchPat ⟨false, [.lit needle.data], false⟩ hay.data

def startsWithCI (needle : String) (hay : String) : Bool :=
  (stripPrefixCI needle.data hay.data).isSome

def shouldSkipFile (name : String) : Option String :=
  if containsCI "archived" name then some "Contains archived"
  else if containsCI "(old)" name then some "Contains (old)"
  else if containsCI "deprecated" name then some "Contains deprecated"
  else if startsWithCI "Copy of" name then some "Copy of another file"
  else if searchPat copyPat name.data then some "Contains (copy)"
  else if containsSeq "~$".data name.data then some "Temporary file"
  else if searchPat caseStudyPat name.data && !containsCI "case study slide library" name then
    some "Individual case study"
  else if name == "Profitero Comparison" then some "Legacy file superseded"
  else none

def indexableMimeTypes : List String :=
  ["application/vnd.google-apps.document",
   "application/vnd.google-apps.presentation",
   "application/vnd.google-apps.spreadsheet",
   "application/pdf"]

/-- The method filterFiles: drop shortcuts, names matching a skip rule,
and unsupported mime types. -/
def filterFiles (files : List DriveFile) : List DriveFile :=
  files.filter (fun f =>
    f.mimeType != "application/vnd.google-apps.shortcut" &&
    (shouldSkipFile f.name).isNone &&
    indexableMimeTypes.contains f.mimeType)

/-- The duplicate-resolution priority list of detectDuplicates; JS
Array.indexOf gives the position, or minus one when absent. -/
def mimeTypePriority : List String :=
  ["application/vnd.google-apps.presentation",
   "application/vnd.google-apps.document",
   "application/vnd.google-apps.spreadsheet",
   "application/pdf",
   "application/vnd.openxmlformats-officedocument.presentationml.presentation"]

def idxFrom (s : String) : List String → Nat → Int
  | [], _ => -1
  | t :: ts, i => if t == s then (i : Int) else idxFrom s ts (i + 1)

def mimePriority (m : String) : Int :=
  idxFrom m mimeTypePriority 0

/-- The strict part of the comparator of detectDuplicates: a sorts
strictly before b when it has smaller priority, or equal priority and a
strictly newer modified time. -/
def betterFile (a b : DriveFile) : Bool :=
  decide (mimePriority a.mimeType < mimePriority b.mimeType ∨
    (mimePriority a.mimeType = mimePriority b.mimeType ∧
     b.modifiedTime < a.modifiedTime))

/-- The first element of the stable sort of a duplicate group by the
detectDuplicates comparator: the earliest input element not strictly
beaten by any other, obtained by a left fold keeping the incumbent on
ties (JS sort is stable and the comparator is a total preorder). -/
def selectWinner : List DriveFile → Option DriveFile
  | [] => none
  | f :: fs => some (fs.foldl (fun best g => if betterFile g best then g else best) f)

/-- The normalized keys of a file list in first-occurrence order: the
iteration order of the JS Map built by detectDuplicates. -/
def groupKeys (files : List DriveFile) : List String :=
  files.foldl (fun acc f =>
    let k := normalizeDedup f.name
    if acc.contains k then acc else acc ++ [k]) []

/-- The group of a normalized key, in input order. -/
def groupOf (files : List DriveFile) (k : String) : List DriveFile :=
  files.filter (fun f => normalizeDedup f.name == k)

/-- The method detectDuplicates: one winner per normalized-name group,
groups in insertion order.  A singleton group passes through unchanged,
which coincides with selectWinner on it. -/
def detectDuplicates (files : List DriveFile) : List DriveFile :=
  (groupKeys files).filterMap (fun k => selectWinner (groupOf files k))

/-- One Pinecone vector (chunk record) as seen through query matches:
the id together with the metadata fields the engine reads and writes.
Date-valued metadata is a midnight millisecond timestamp; a missing or
empty metadata field is none. -/
structure ChunkMeta where
  vid : String
  fileId : Option String
  fileName : Option String
  modifiedDate : Option Nat
  createdDate : Option Nat
  lastSyncDate : Option Nat
  version : Option Nat
  md5 : Option String
  size : Option Int
  text : String
  lineFrom : Nat
  lineTo : Nat
deriving DecidableEq

/-- The per-document aggregation built by loadPineconeState (one entry
of pineconeFiles or pineconeFilesByName). -/
structure PineconeDoc where
  fileId : Option String
  fileName : Option String
  modifiedDate : Option Nat
  lastSyncDate : Option Nat
  version : Nat
  md5 : Option String
  size : Option Int
  vectorCount : Nat
  hasFileId : Bool
deriving DecidableEq

/-- The result of loadPineconeState: the by-id map, the by-name map for
records without a file id, and the maximum last sync date seen across
all records; the maps are association lists in insertion order, the JS
Map iteration order. -/
structure PineconeState where
  byId : List (String × PineconeDoc)
  byName : List (String × PineconeDoc)
  latest : Option Nat
deriving DecidableEq

/-- Increment the vectorCount of the entry with the given key. -/
def bumpCount (key : String) : List (String × PineconeDoc) → List (String × PineconeDoc)
  | [] => []
  | (k, d) :: rest =>
    if k == key then (k, { d with vectorCount := d.vectorCount + 1 }) :: rest
    else (k, d) :: bumpCount key rest

/-- The by-id map update of one loadPineconeState loop iteration: only
records carrying a file id touch it. -/
def byIdUpdate (byId : List (String × PineconeDoc)) (m : ChunkMeta) :
    List (String × PineconeDoc) :=
  match m.fileId with
  | some fid =>
    if (byId.lookup fid).isSome then bumpCount fid byId
    else byId ++ [(fid,
      ⟨some fid, m.fileName, m.modifiedDate, m.lastSyncDate, m.version.getD 0,
       m.md5, m.size, 1, true⟩)]
  | none => byId

/-- The by-name map update of one loadPineconeState loop iteration: only
records with no file id but a file name touch it. -/
def byNameUpdate (byName : List (String × PineconeDoc)) (m : ChunkMeta) :
    List (String × PineconeDoc) :=
  match m.fileId with
  | some _ => byName
  | none =>
    match m.fileName with
    | some fname =>
      if (byName.lookup fname).isSome then bumpCount fname byName
      else byName ++ [(fname,
        ⟨none, some fname, m.modifiedDate, m.lastSyncDate, m.version.getD 0,
         m.md5, m.size, 1, false⟩)]
    | none => byName

/-- The latest-sync-date update: performed for every record that carries
a last sync date, before and independently of the map branches. -/
def latestUpdate (latest : Option Nat) (m : ChunkMeta) : Option Nat :=
  match m.lastSyncDate with
  | some d =>
    match latest with
    | none => some d
    | some l => if l < d then some d else some l
  | none => latest

def loadStep (s : PineconeState) (m : ChunkMeta) : PineconeState :=
  ⟨byIdUpdate s.byId m, byNameUpdate s.byName m, latestUpdate s.latest m⟩

/-- The method loadPineconeState over the full list of index records. -/
def loadPineconeState (recs : List ChunkMeta) : PineconeState :=
  recs.foldl loadStep ⟨[], [], none⟩

/-- The flat candidate list for fuzzy matching in classifyChanges: the
by-id values followed by the by-name values. -/
def allPineconeDocs (s : PineconeState) : List PineconeDoc :=
  s.byId.map Prod.snd ++ s.byName.map Prod.snd

/-- The fuzzy-match predicate applied by classifyChanges through
Array.find.  A record with no stored name cannot match. -/
def fuzzyPred (nm : String) (p : PineconeDoc) : Bool :=
  match p.fileName with
  | some pn => isSimilarName nm pn
  | none => false

/-- The three-stage identity resolution of classifyChanges: exact id,
exact name, then first fuzzy match in candidate order. -/
def matchFor (s : PineconeState) (f : DriveFile) : Option PineconeDoc :=
  match s.byId.lookup f.fid with
  | some d => some d
  | none =>
    match s.byName.lookup f.name with
    | some d => some d
    | none => (allPineconeDocs s).find? (fuzzyPred f.name)

def dayMs : Nat := 86400000

/-- Truncate a millisecond timestamp to midnight: the effect of storing
only the date part of an ISO timestamp and reparsing it at T00:00:00Z. -/
def dateOnly (t : Nat) : Nat :=
  dayMs * (t / dayMs)

def thirtyDaysMs : Nat := 30 * dayMs

/-- The cutoff of classifyChanges: the latest sync date when one exists,
else thirty days before now (truncated Nat subtraction never occurs for
realistic now values). -/
def cutoffOf (latest : Option Nat) (now : Nat) : Nat :=
  match latest with
  | some l => l
  | none => now - thirtyDaysMs

/-- The change signals of classifyChanges.  Truthiness notes: the Drive
version and size arrive as strings, truthy whenever present; the stored
Pinecone version defaults to 0 which is falsy; absent dates make the JS
Date comparison false. -/
structure Signals where
  versionChanged : Bool
  dateChanged : Bool
  hashChanged : Bool
  nameChanged : Bool
  sizeChanged : Bool
deriving DecidableEq

def computeSignals (f : DriveFile) (d : PineconeDoc) : Signals :=
  { versionChanged :=
      match f.version with
      | some v => d.version != 0 && decide (d.version < v)
      | none => false
    dateChanged :=
      match d.modifiedDate with
      | some md => decide (md < f.modifiedTime)
      | none => false
    hashChanged :=
      match f.md5Checksum, d.md5 with
      | some a, some b => a != b
      | _, _ => false
    nameChanged :=
      match d.fileName with
      | some n => f.name != n
      | none => true
    sizeChanged :=
      match f.size, d.size with
      | some a, some b => b != 0 && decide ((100 : Int) < (a - b).natAbs)
      | _, _ => false }

/-- The classification of one winning file by classifyChanges, in the
order the source evaluates it: no match is NEW; a match at or before the
cutoff is UNCHANGED; a match without a stored file id is MODIFIED as a
legacy record; otherwise the signal disjunction decides MODIFIED versus
UNCHANGED. -/
inductive FileClass where
  | isNew
  | unchangedCutoff (d : PineconeDoc)
  | modifiedLegacy (d : PineconeDoc)
  | modifiedSignals (d : PineconeDoc) (s : Signals)
  | unchangedNoChange (d : PineconeDoc)
deriving DecidableEq

def classifyOne (st : PineconeState) (now : Nat) (f : DriveFile) : FileClass :=
  match matchFor st f with
  | none => .isNew
  | some d =>
    if f.modifiedTime ≤ cutoffOf st.latest now then .unchangedCutoff d
    else if !d.hasFileId then .modifiedLegacy d
    else
      let s := computeSignals f d
      if s.versionChanged || s.hashChanged || s.sizeChanged || s.dateChanged then
        .modifiedSignals d s
      else .unchangedNoChange d

/-- The output lists of classifyChanges, built in input order. -/
structure ClassifyResult where
  newFiles : List DriveFile
  modifiedFiles : List (DriveFile × PineconeDoc)
  unchangedFiles : List DriveFile
deriving DecidableEq

def classifyChanges (files : List DriveFile) (st : PineconeState) (now : Nat) :
    ClassifyResult :=
  files.foldl (fun acc f =>
    match classifyOne st now f with
    | .isNew => { acc with newFiles := acc.newFiles ++ [f] }
    | .unchangedCutoff _ => { acc with unchangedFiles := acc.unchangedFiles ++ [f] }
    | .modifiedLegacy d => { acc with modifiedFiles := acc.modifiedFiles ++ [(f, d)] }
    | .modifiedSignals d _ => { acc with modifiedFiles := acc.modifiedFiles ++ [(f, d)] }
    | .unchangedNoChange _ => { acc with unchangedFiles := acc.unchangedFiles ++ [f] })
    ⟨[], [], []⟩

/-- One output chunk of the line-based chunkText of IntelligentSync. -/
structure Chunk where
  text : List Char
  lineFrom : Nat
  lineTo : Nat
deriving DecidableEq

/-- JS String.split on the newline character: keeps empty segments, and
the empty string splits to one empty segment. -/
def splitLines : List Char → List (List Char)
  | [] => [[]]
  | '\n' :: rest => [] :: splitLines rest
  | c :: rest =>
    match splitLines rest with
    | l :: ls => (c :: l) :: ls
    | [] => [[c]]

/-- JS Array.indexOf: index of the first element equal to x, or -1. -/
def jsIndexOf [BEq α] (l : List α) (x : α) : Int :=
  let rec go : List α → Nat → Int
    | [], _ => -1
    | y :: ys, i => if y == x then (i : Int) else go ys (i + 1)
  go l 0

/-- The backwards overlap loop of chunkText, walking the recorded line
numbers of the pushed chunk from the end.  Each recorded number is
indexOf of the line plus one and the source uses it directly as an index
into lines (the off-by-one of the source is reproduced); an out-of-range
access yields undefined whose indexOf is -1, stopping the loop.  The
line fetched at a valid index has the same content as the line at its
first occurrence, which the source then uses. -/
def overlapLoop (lines : List (List Char)) (overlap : Nat) :
    List Nat → List Nat → List Char → (List Nat × List Char)
  | [], accLines, accText => (accLines, accText)
  | j :: rest, accLines, accText =>
    match lines.get? j with
    | none => (accLines, accText)
    | some ln =>
      if accText.length + ln.length < overlap then
        overlapLoop lines overlap rest (j :: accLines) (ln ++ '\n' :: accText)
      else (accLines, accText)

/-- The running state of the chunkText loop: chunks pushed so far, the
chunk under construction, and the recorded line numbers. -/
structure ChunkLoopState where
  chunks : List Chunk
  currentChunk : List Char
  currentLines : List Nat
deriving DecidableEq

/-- One iteration of the chunkText loop over a line. -/
def chunkStep (lines : List (List Char)) (chunkSize overlap : Nat)
    (st : ChunkLoopState) (line : List Char) : ChunkLoopState :=
  let lineLength := line.length + 1
  let st1 :=
    if chunkSize < st.currentChunk.length + lineLength ∧ 0 < st.currentChunk.length then
      let pushed : Chunk :=
        ⟨trimChars st.currentChunk, st.currentLines.headD 1,
         (st.currentLines.getLast?).getD 1⟩
      let ov := overlapLoop lines overlap st.currentLines.reverse [] []
      ChunkLoopState.mk (st.chunks ++ [pushed]) ov.2 ov.1
    else st
  ⟨st1.chunks, st1.currentChunk ++ line ++ ['\n'],
   st1.currentLines ++ [(jsIndexOf lines line).toNat + 1]⟩

/-- The method chunkText of IntelligentSync (identical in the catalog
syncer): line-accumulating chunks with a trailing-line overlap carry. -/
def chunkTextL (text : List Char) (chunkSize overlap : Nat) : List Chunk :=
  let lines := splitLines text
  let fin := lines.foldl (chunkStep lines chunkSize overlap) ⟨[], [], []⟩
  if (trimChars fin.currentChunk).isEmpty then fin.chunks
  else fin.chunks ++
    [⟨trimChars fin.currentChunk, fin.currentLines.headD 1,
      (fin.currentLines.getLast?).getD 1⟩]

/-- The vectors built by createVectors of IntelligentSync for one file:
one record per chunk, carrying the file identity, the date-only modified
and created dates, and todays date as the last sync date.  The random
uuid suffix of the vector id is modelled away; the id stays unique per
file and chunk position, which is all the engine relies on. -/
def createVectors (now : Nat) (f : DriveFile) (chunks : List Chunk) :
    List ChunkMeta :=
  chunks.enum.map (fun ic =>
    ⟨f.fid ++ "_chunk_" ++ toString ic.1, some f.fid, some f.name,
     some (dateOnly f.modifiedTime), some (dateOnly f.createdTime),
     some (dateOnly now), none, none, none,
     ⟨ic.2.text⟩, ic.2.lineFrom, ic.2.lineTo⟩)

/-- Pinecone upsert: replace any record with a colliding id, append the
new records. -/
def upsertVectors (idx : List ChunkMeta) (vs : List ChunkMeta) : List ChunkMeta :=
  idx.filter (fun r => !(vs.any (fun v => v.vid == r.vid))) ++ vs

/-- The method deleteFileVectors: collect the ids of all records whose
File.id metadata equals the given id, then deleteMany them.  Returns the
count and the remaining index. -/
def deleteFileVectors (idx : List ChunkMeta) (fid : String) :
    (Nat × List ChunkMeta) :=
  let ids := (idx.filter (fun r => r.fileId == some fid)).map (fun r => r.vid)
  (ids.length, idx.filter (fun r => !(ids.contains r.vid)))

def minContentLen : Nat := 50

/-- The method indexFile: dispatch extraction on the mime type (an
unsupported type throws, a per-item failure), fail when the trimmed text
is shorter than 50 characters, otherwise chunk with the default sizes
and build the vectors.  Extraction runs through the injected extract
function; a none result stands for any thrown extraction, embedding or
upload error, all of which the method catches and converts into a failed
result. -/
def indexFile (extract : DriveFile → Option String) (now : Nat) (f : DriveFile) :
    Option (List ChunkMeta) :=
  if !(indexableMimeTypes.contains f.mimeType) then none
  else
    match extract f with
    | none => none
    | some text =>
      if (trimChars text.data).length < minContentLen then none
      else some (createVectors now f (chunkTextL text.data 1000 200))

/-- Accumulator of the processing phases of run: the evolving index and
the per-phase success, failure, upsert and delete counters. -/
structure ProcState where
  idx : List ChunkMeta
  ok : Nat
  fail : Nat
  ups : Nat
  dels : Nat
deriving DecidableEq

/-- Phase 2 of run: index one NEW file; any failure only bumps the
failure counter. -/
def processNewFile (extract : DriveFile → Option String) (now : Nat)
    (s : ProcState) (f : DriveFile) : ProcState :=
  match indexFile extract now f with
  | some vs => ⟨upsertVectors s.idx vs, s.ok + 1, s.fail, s.ups + vs.length, s.dels⟩
  | none => ⟨s.idx, s.ok, s.fail + 1, s.ups, s.dels⟩

/-- Phase 3 of run: re-index one MODIFIED file; the vectors carrying the
Drive file id are deleted first, then the file is indexed afresh. -/
def processModifiedFile (extract : DriveFile → Option String) (now : Nat)
    (s : ProcState) (fd : DriveFile × PineconeDoc) : ProcState :=
  let del := deleteFileVectors s.idx fd.1.fid
  match indexFile extract now fd.1 with
  | some vs =>
    ⟨upsertVectors del.2 vs, s.ok + 1, s.fail, s.ups + vs.length, s.dels + del.1⟩
  | none => ⟨del.2, s.ok, s.fail + 1, s.ups, s.dels + del.1⟩

/-- The outcome of one full run of IntelligentSync. -/
structure RunResult where
  finalIndex : List ChunkMeta
  newIndexed : Nat
  newFailed : Nat
  modifiedReIndexed : Nat
  modifiedFailed : Nat
  upserted : Nat
  deleted : Nat
  exitCode : Nat
deriving DecidableEq

/-- The method run of IntelligentSync: load the index state, filter and
deduplicate the snapshot, classify, index the NEW files, re-index the
MODIFIED files, and exit 1 exactly when some per-item processing
failed. -/
def runSync (extract : DriveFile → Option String) (now : Nat)
    (index0 : List ChunkMeta) (drive : List DriveFile) : RunResult :=
  let st := loadPineconeState index0
  let cls := classifyChanges (detectDuplicates (filterFiles drive)) st now
  let sNew := cls.newFiles.foldl (processNewFile extract now) ⟨index0, 0, 0, 0, 0⟩
  let sMod := cls.modifiedFiles.foldl (processModifiedFile extract now)
    ⟨sNew.idx, 0, 0, 0, 0⟩
  ⟨sMod.idx, sNew.ok, sNew.fail, sMod.ok, sMod.fail,
   sNew.ups + sMod.ups, sNew.dels + sMod.dels,
   if 0 < sNew.fail + sMod.fail then 1 else 0⟩

/-- One entry of the map built by getPineconeFiles of the catalog syncer
(PineconeCatalogSyncer): name and modified date of the first record seen
for the file id, and the ids of all its vectors. -/
structure CatEntry where
  name : Option String
  modifiedDate : Option Nat
  vectorIds : List String
deriving DecidableEq

/-- Append one vector id to the entry with the given key. -/
def bumpCat (fid : String) (v : String) (m : List (String × CatEntry)) :
    List (String × CatEntry) :=
  m.map (fun ke =>
    match ke.1 == fid with
    | true => (ke.1, { ke.2 with vectorIds := ke.2.vectorIds ++ [v] })
    | false => ke)

/-- One loop iteration of getPineconeFiles: records without a file id
are skipped entirely; otherwise the record id is appended to the entry
of its file id, creating the entry on first sight. -/
def catStep (m : List (String × CatEntry)) (r : ChunkMeta) :
    List (String × CatEntry) :=
  match r.fileId with
  | none => m
  | some fid =>
    if (m.lookup fid).isSome then bumpCat fid r.vid m
    else m ++ [(fid, ⟨r.fileName, r.modifiedDate, [r.vid]⟩)]

/-- The method getPineconeFiles over the full record list. -/
def getPineconeFiles (idx : List ChunkMeta) : List (String × CatEntry) :=
  idx.foldl catStep []

/-- The comparison result of compareFiles of the catalog syncer. -/
structure CompareResult where
  newFiles : List DriveFile
  modifiedFiles : List (DriveFile × List String)
  deletedFiles : List (String × CatEntry)
deriving DecidableEq

/-- The catalog syncer getDriveFiles keeps only the supported types; it
applies no name filters. -/
def catalogSupported (files : List DriveFile) : List DriveFile :=
  files.filter (fun f => indexableMimeTypes.contains f.mimeType)

/-- The method compareFiles: a Drive file absent from the map is new; a
present one with a strictly newer modified time is modified, carrying
the old vector ids; every map entry whose id no Drive file carries is
deleted. -/
def compareFiles (drive : List DriveFile) (pf : List (String × CatEntry)) :
    CompareResult :=
  let newF := drive.filter (fun f => (pf.lookup f.fid).isNone)
  let modF := drive.filterMap (fun f =>
    match pf.lookup f.fid with
    | some e =>
      match e.modifiedDate with
      | some md => if md < f.modifiedTime then some (f, e.vectorIds) else none
      | none => none
    | none => none)
  let delF := pf.filter (fun ke => !(drive.any (fun f => f.fid == ke.1)))
  ⟨newF, modF, delF⟩

/-- The method deleteRemovedFiles: for each deleted entry, deleteMany
its recorded vector ids. -/
def deleteRemovedFiles (deleted : List (String × CatEntry))
    (idx : List ChunkMeta) : List ChunkMeta :=
  deleted.foldl (fun cur fe => cur.filter (fun r => !(fe.2.vectorIds.contains r.vid))) idx

/-- The vector ids of all records of one file id, in index order: the
value the getPineconeFiles fold accumulates per map entry (used to
specify that fold). -/
def vidsOf (recs : List ChunkMeta) (fid : String) : List String :=
  (recs.filter (fun r => r.fileId == some fid)).map (fun r => r.vid)

/-
Concrete inputs used by the witnesses, counterexamples and bug
evaluations below.  Timestamps are written as multiples of dayMs plus a
time-of-day offset in milliseconds.
-/

def docMime : String := "application/vnd.google-apps.document"
def slidesMime : String := "application/vnd.google-apps.presentation"
def pptxMime : String :=
  "application/vnd.openxmlformats-officedocument.presentationml.presentation"

/-- A sixty-character extraction result, above the minimum content
threshold; a single line, hence a single chunk. -/
def longText : String := ⟨List.replicate 60 'a'⟩

/-- An extraction collaborator that always succeeds with longText. -/
def idmExtract : DriveFile → Option String := fun _ => some longText

/-- A Google Doc last modified at 15:00 UTC on day 100. -/
def idmFile : DriveFile :=
  ⟨"F1", "Quarterly Report", docMime, dayMs * 100 + 54000000, dayMs * 90,
   some 4, some "h1", some 5000⟩

/-- First run at 17:00 UTC on day 100, on an empty index. -/
def idmNow1 : Nat := dayMs * 100 + 61200000

/-- Second run at 18:00 UTC on the same day, immediately after. -/
def idmNow2 : Nat := dayMs * 100 + 64800000

def idmRun1 : RunResult := runSync idmExtract idmNow1 [] [idmFile]

def idmRun2 : RunResult := runSync idmExtract idmNow2 idmRun1.finalIndex [idmFile]

/-- The by-id document the second run reconstructs for idmFile: the
stored modified date and last sync date are both truncated to midnight
of day 100, and createVectors stores no version, hash or size. -/
def idmDoc2 : PineconeDoc :=
  ⟨some "F1", some "Quarterly Report", some (dayMs * 100), some (dayMs * 100),
   0, none, none, 1, true⟩

/-- The signals of the second-run classification of idmFile: only the
date signal fires, because the full modified timestamp exceeds the
stored midnight date. -/
def idmSignals2 : Signals := ⟨false, true, false, false, false⟩

/-- A legacy chunk record without a File.id, indexed under its name. -/
def legacyChunk : ChunkMeta :=
  ⟨"vLegacy", none, some "Pricing Guide Handbook", some (dayMs * 50), none,
   some (dayMs * 60), none, none, none, "old text", 1, 1⟩

/-- The Drive file carrying the same name as the legacy record. -/
def legacyFile : DriveFile :=
  ⟨"F2", "Pricing Guide Handbook", docMime, dayMs * 70 + 3600000, dayMs * 10,
   some 2, none, none⟩

def legacyRun : RunResult :=
  runSync idmExtract (dayMs * 70 + 7200000) [legacyChunk] [legacyFile]

/-- A chunk of an indexed document whose file is gone from Drive. -/
def orphanChunk : ChunkMeta :=
  ⟨"vOld", some "X", some "Old Deck", some (dayMs * 40), none,
   some (dayMs * 45), none, none, none, "z", 1, 1⟩

/-- A full-sync run against an empty Drive snapshot. -/
def orphanRun : RunResult := runSync idmExtract (dayMs * 80) [orphanChunk] []

/-- The catalog-syncer map entry for the orphaned document. -/
def catIdx : List ChunkMeta := [orphanChunk]

def catEntryX : CatEntry := ⟨some "Old Deck", some (dayMs * 40), ["vOld"]⟩

/-- Two indexed documents whose names both fuzzy-match Budget.pdf. -/
def budgetRec1 : ChunkMeta :=
  ⟨"v1", some "P1", some "Budget", some (dayMs * 5), none, some (dayMs * 10),
   none, none, none, "t1", 1, 1⟩

def budgetRec2 : ChunkMeta :=
  ⟨"v2", some "P2", some "Budget.docx", some (dayMs * 6), none, some (dayMs * 10),
   none, none, none, "t2", 1, 1⟩

def budgetState : PineconeState := loadPineconeState [budgetRec1, budgetRec2]

/-- A Drive file matching neither map but fuzzy-matching both records. -/
def budgetFile : DriveFile :=
  ⟨"D9", "Budget.pdf", docMime, dayMs * 20, dayMs * 2, none, none, none⟩

def budgetNow : Nat := dayMs * 21

/-- A chunk record carrying neither a file id nor a file name, only a
last sync date. -/
def namelessRec : ChunkMeta :=
  ⟨"n1", none, none, some (dayMs * 3), none, some 5, none, none, none, "zz", 1, 1⟩

/-- Records with a file id or a file name: the ones the state loader
maps can see. -/
def keepRec (r : ChunkMeta) : Bool :=
  r.fileId.isSome || r.fileName.isSome

/-- An indexed document synced on day 50, with stored size 1000. -/
def c4Rec : ChunkMeta :=
  ⟨"c4v", some "A1", some "Spec Sheet", some (dayMs * 10), none,
   some (dayMs * 50), some 3, some "m", some 1000, "t", 1, 1⟩

def c4State : PineconeState := loadPineconeState [c4Rec]

/-- The matching Drive file: modified on day 40, before the day-50
cutoff, with a size differing by 4000 bytes and a different hash. -/
def c4File : DriveFile :=
  ⟨"A1", "Spec Sheet", docMime, dayMs * 40, dayMs * 1, some 9, some "m2",
   some 5000⟩

def c4Doc : PineconeDoc :=
  ⟨some "A1", some "Spec Sheet", some (dayMs * 10), some (dayMs * 50), 3,
   some "m", some 1000, 1, true⟩

def c4Now : Nat := dayMs * 55

/-- The duplicate group of the specification scenario: a pdf export, a
pptx slides export, and the native slide format, all normalizing to the
key report.  The native item is deliberately the oldest, so only format
priority can make it win. -/
def reportPdf : DriveFile :=
  ⟨"R1", "Report.pdf", "application/pdf", dayMs * 30, 0, none, none, none⟩

def reportPptx : DriveFile :=
  ⟨"R2", "Report.pptx", pptxMime, dayMs * 29, 0, none, none, none⟩

def reportSlides : DriveFile :=
  ⟨"R3", "Report", slidesMime, dayMs * 5, 0, none, none, none⟩

/-- All six input orders of the group. -/
def reportPerms : List (List DriveFile) :=
  [[reportPdf, reportPptx, reportSlides], [reportPdf, reportSlides, reportPptx],
   [reportPptx, reportPdf, reportSlides], [reportPptx, reportSlides, reportPdf],
   [reportSlides, reportPdf, reportPptx], [reportSlides, reportPptx, reportPdf]]

def c5Files : List DriveFile := [reportPdf, reportSlides]

/-- A long name and its truncation, both at least 30 characters after
normalization. -/
def c6LongA : String := "comprehensive enterprise onboarding playbook handbook"

def c6LongB : String := "comprehensive enterprise onboarding playbook"

/-- A single line longer than the maximum chunk size. -/
def c7LongLine : List Char := List.replicate 1001 'a'

/-- Two distinct 510-character lines: together they cross the chunk
limit, and the produced consecutive chunks share no content at all. -/
def c7TwoLines : List Char :=
  List.replicate 510 'a' ++ '\n' :: List.replicate 510 'b'

def c7Chunks : List Chunk := chunkTextL c7TwoLines 1000 200

/-- Does a suffix of a of length k equal a prefix of b of length k. -/
def sharedSuffixPrefix (a b : List Char) (k : Nat) : Bool :=
  decide (k ≤ a.length) && decide (k ≤ b.length) &&
    (a.drop (a.length - k) == b.take k)

/-- Do consecutive chunk texts share at least n characters of trailing
and leading content (a shared run cannot exceed either length, so the
search space is bounded by the length of a). -/
def sharesAtLeast (a b : List Char) (n : Nat) : Bool :=
  (List.range (a.length + 1)).any (fun k => decide (n ≤ k) && sharedSuffixPrefix a b k)

/-- The witness text for the chunk-size bound: two short lines. -/
def c7wText : List Char := "ab\ncd".data

def c7wChunk : Chunk := ⟨"ab\ncd".data, 1, 2⟩

/-
Theorems.  Each claim of the specification is settled below; general
helper lemmas come first.
-/

/-- C4: Cutoff short-circuit precedes signal comparison.  For every
state, clock and winning file, if the file is matched to an indexed
document and its modified time is at or before the global sync cutoff
(latest sync date, or the thirty-day lookback without one), the
classification is UNCHANGED, regardless of every other field of the file
and of the matched document, in particular regardless of any size
difference beyond the 100-byte tolerance. -/
theorem cutoff_short_circuit (st : PineconeState) (now : Nat) (f : DriveFile)
    (d : PineconeDoc) (hm : matchFor st f = some d)
    (hc : f.modifiedTime ≤ cutoffOf st.latest now) :
    classifyOne st now f = FileClass.unchangedCutoff d := by
  unfold classifyOne
  rw [hm]
  simp [hc]

/-- Witness for C4: a concrete matched file whose size differs from the
stored size by 4000 bytes (and whose hash differs) is still classified
UNCHANGED because it was modified before the cutoff. -/
theorem cutoff_short_circuit_witness :
    (computeSignals c4File c4Doc).sizeChanged = true ∧
    (computeSignals c4File c4Doc).hashChanged = true ∧
    classifyOne c4State c4Now c4File = FileClass.unchangedCutoff c4Doc :=
  ⟨by decide, by decide,
   cutoff_short_circuit c4State c4Now c4File c4Doc (by decide) (by decide)⟩

/-- C6: the fuzzy-match 30-character threshold.  First part: whenever
either normalized name reaches 30 characters and one normalized name
contains the other, isSimilarName reports a match.  Second part: when
both normalized names are shorter than 30 characters, isSimilarName
matches exactly when the normalized names are equal, so containment
alone never merges two short names. -/
theorem fuzzy_threshold :
    (∀ a b : String,
      (30 ≤ (normalizeNameL a.data).length ∨ 30 ≤ (normalizeNameL b.data).length) →
      (containsSeq (normalizeNameL b.data) (normalizeNameL a.data) = true ∨
       containsSeq (normalizeNameL a.data) (normalizeNameL b.data) = true) →
      isSimilarName a b = true) ∧
    (∀ a b : String,
      (normalizeNameL a.data).length < 30 → (normalizeNameL b.data).length < 30 →
      (isSimilarName a b = true ↔ normalizeNameL a.data = normalizeNameL b.data)) := by
  constructor
  · intro a b hlen hcont
    unfold isSimilarName
    by_cases he : normalizeNameL a.data = normalizeNameL b.data
    · simp [he]
    · have hb : (normalizeNameL a.data == normalizeNameL b.data) = false := by
        simpa using he
      simp only [hb, Bool.false_eq_true, if_false, if_pos hlen]
      rcases hcont with h | h <;> simp [h]
  · intro a b h1 h2
    unfold isSimilarName
    by_cases he : normalizeNameL a.data = normalizeNameL b.data
    · simp [he]
    · have hb : (normalizeNameL a.data == normalizeNameL b.data) = false := by
        simpa using he
      have hno : ¬(30 ≤ (normalizeNameL a.data).length ∨
          30 ≤ (normalizeNameL b.data).length) := by omega
      simp [hb, hno, he]

/-- Witness for C6: the truncated long title matches its full form, and
the two short names abcd and abc, although one contains the other, do
not match. -/
theorem fuzzy_threshold_witness :
    isSimilarName c6LongA c6LongB = true ∧ isSimilarName "abcd" "abc" = false := by
  constructor
  · exact fuzzy_threshold.1 c6LongA c6LongB (Or.inl (by decide)) (Or.inl (by decide))
  · have h := fuzzy_threshold.2 "abcd" "abc" (by decide) (by decide)
    have hne : ¬(normalizeNameL "abcd".data = normalizeNameL "abc".data) := by decide
    cases hv : isSimilarName "abcd" "abc"
    · rfl
    · exact absurd (h.mp hv) hne

/-- C1 (bug evaluation): idempotence fails.  On day 100 a single Google
Doc modified at 15:00 is indexed by a first run (NEW, success, exit 0);
an immediately following second run over the unchanged snapshot and the
index the first run produced classifies the same file MODIFIED with
only the date signal set, because createVectors stored the modified
date truncated to midnight while classifyChanges compares the full
timestamp against it; the second run then deletes and rewrites the
documents vectors instead of performing zero writes. -/
theorem idempotence_bug :
    idmRun1.newIndexed = 1 ∧ idmRun1.exitCode = 0 ∧
    classifyOne (loadPineconeState idmRun1.finalIndex) idmNow2 idmFile =
      FileClass.modifiedSignals idmDoc2 idmSignals2 ∧
    idmRun2.modifiedReIndexed = 1 ∧
    0 < idmRun2.upserted + idmRun2.deleted := by decide

/-- C3 (bug evaluation): a document matched only by legacy name is
classified MODIFIED and successfully re-indexed, yet its prior chunk
survives: deleteFileVectors filters on File.id equal to the Drive file
id, which no legacy chunk carries, so the run deletes nothing and the
stale chunk coexists with the freshly written ones. -/
theorem legacy_stale_chunk_bug :
    legacyRun.modifiedReIndexed = 1 ∧ legacyRun.exitCode = 0 ∧
    legacyRun.deleted = 0 ∧
    legacyChunk ∈ legacyRun.finalIndex ∧
    legacyRun.finalIndex.any (fun r => r.fileId == some "F2") = true := by decide

/-- Counterexample for C2: the full-sync pipeline never classifies any
indexed document DELETED and never removes its chunks.  A document (id
X) reconstructed by the state loader, with the Drive snapshot empty so
that no winning item matches it, survives a successful run untouched. -/
theorem deleted_classification_counterexample :
    ((loadPineconeState [orphanChunk]).byId.lookup "X").isSome = true ∧
    orphanRun.exitCode = 0 ∧ orphanRun.deleted = 0 ∧ orphanRun.upserted = 0 ∧
    orphanChunk ∈ orphanRun.finalIndex := by decide

/-- Counterexample for C8: with two indexed documents (Budget and
Budget.docx) both fuzzy-matching the unmatched Drive file Budget.pdf,
the classifier does not reject the ambiguous match: it accepts the
first candidate (id P1) and classifies the file as modified rather than
NEW. -/
theorem ambiguous_fuzzy_counterexample :
    ((allPineconeDocs budgetState).filter (fuzzyPred "Budget.pdf")).length = 2 ∧
    (budgetState.byId.lookup budgetFile.fid).isNone = true ∧
    (budgetState.byName.lookup budgetFile.name).isNone = true ∧
    (matchFor budgetState budgetFile).map PineconeDoc.fileId = some (some "P1") ∧
    classifyOne budgetState budgetNow budgetFile ≠ FileClass.isNew := by decide

/-- Counterexample for C10: a chunk record with neither a file id nor a
file name is dropped from both maps, yet its last sync date does
contribute to the global cutoff: loading it yields latest = some 5,
whereas loading nothing yields none. -/
theorem nameless_cutoff_counterexample :
    (loadPineconeState [namelessRec]).byId = [] ∧
    (loadPineconeState [namelessRec]).byName = [] ∧
    (loadPineconeState [namelessRec]).latest = some 5 ∧
    (loadPineconeState ([] : List ChunkMeta)).latest = none := by decide

/-- Counterexample for C7: the line chunker violates both halves of the
chunking contract at the default sizes.  A single 1001-character line
yields a 1001-character chunk, above the 1000 maximum; and two
510-character lines yield two consecutive chunks that share no content
at all, far below the 200-character overlap the contract requires. -/
theorem chunking_counterexample :
    ((chunkTextL c7LongLine 1000 200).map (fun c => c.text.length) = [1001]) ∧
    (c7Chunks.map (fun c => c.text) =
      [List.replicate 510 'a', List.replicate 510 'b']) ∧
    sharesAtLeast (List.replicate 510 'a') (List.replicate 510 'b') 200 = false := by
  decide

/-- Helper: a classification with a matched document is never NEW. -/
theorem classifyOne_ne_new (st : PineconeState) (now : Nat) (f : DriveFile)
    (d : PineconeDoc) (hm : matchFor st f = some d) :
    classifyOne st now f ≠ FileClass.isNew := by
  unfold classifyOne
  rw [hm]
  split
  next heq => cases heq
  next d2 heq =>
    intro hcon
    split_ifs at hcon <;> try simp at hcon
    split_ifs at hcon

/-- C8 (amended): when a winning item has no id match and no exact-name
match but at least one indexed document fuzzy-matches its name, the
classifier does not reject the match: it accepts exactly the first
fuzzy-matching document in candidate order (by-id entries then by-name
entries) and classifies the item against it, never as NEW. -/
theorem fuzzy_first_match (st : PineconeState) (now : Nat) (f : DriveFile)
    (h1 : st.byId.lookup f.fid = none)
    (h2 : st.byName.lookup f.name = none)
    (h3 : (allPineconeDocs st).any (fuzzyPred f.name) = true) :
    matchFor st f = (allPineconeDocs st).find? (fuzzyPred f.name) ∧
    matchFor st f ≠ none ∧
    classifyOne st now f ≠ FileClass.isNew ∧
    ∀ d, matchFor st f = some d →
      d ∈ allPineconeDocs st ∧ fuzzyPred f.name d = true := by
  have h4 : matchFor st f = (allPineconeDocs st).find? (fuzzyPred f.name) := by
    unfold matchFor
    rw [h1, h2]
  have hsome : ((allPineconeDocs st).find? (fuzzyPred f.name)).isSome := by
    rw [List.find?_isSome]
    obtain ⟨x, hx, hpx⟩ := List.any_eq_true.mp h3
    exact ⟨x, hx, hpx⟩
  obtain ⟨d, hd⟩ := Option.isSome_iff_exists.mp hsome
  have hmd : matchFor st f = some d := by rw [h4, hd]
  refine ⟨h4, ?_, classifyOne_ne_new st now f d hmd, ?_⟩
  · rw [hmd]; simp
  · intro d2 hd2
    rw [h4] at hd2
    exact ⟨List.mem_of_find?_eq_some hd2, List.find?_some hd2⟩

/-- Witness for C8 (amended): the Budget.pdf scenario instantiates the
amended claim: the ambiguous item is matched, and not classified NEW. -/
theorem fuzzy_first_match_witness :
    matchFor budgetState budgetFile ≠ none ∧
    classifyOne budgetState budgetNow budgetFile ≠ FileClass.isNew := by
  have h := fuzzy_first_match budgetState budgetNow budgetFile
    (by decide) (by decide) (by decide)
  exact ⟨h.2.1, h.2.2.1⟩

/-- Helper: the duplicate comparator never prefers a file to itself. -/
theorem betterFile_irrefl (a : DriveFile) : betterFile a a = false := by
  simp [betterFile]

/-- Helper: the strict comparator order is transitive. -/
theorem betterFile_trans {a b c : DriveFile} (h1 : betterFile a b = true)
    (h2 : betterFile b c = true) : betterFile a c = true := by
  simp only [betterFile, decide_eq_true_eq] at h1 h2 ⊢
  rcases h1 with h1 | ⟨h1, h1d⟩ <;> rcases h2 with h2 | ⟨h2, h2d⟩
  · exact Or.inl (lt_trans h1 h2)
  · exact Or.inl (h2 ▸ h1)
  · exact Or.inl (h1 ▸ h2)
  · exact Or.inr ⟨h1.trans h2, lt_trans h2d h1d⟩

/-- Helper: a file at least as good as g inherits a strict win of g. -/
theorem betterFile_compose {g a r : DriveFile} (h1 : betterFile g a = false)
    (h2 : betterFile g r = true) : betterFile a r = true := by
  simp only [betterFile, decide_eq_true_eq, decide_eq_false_iff_not] at h1 h2 ⊢
  push_neg at h1
  obtain ⟨hle, himp⟩ := h1
  rcases h2 with h2 | ⟨h2, h2d⟩
  · exact Or.inl (lt_of_le_of_lt hle h2)
  · rcases lt_or_eq_of_le hle with hlt | heq
    · exact Or.inl (h2 ▸ hlt)
    · refine Or.inr ⟨by rw [heq, h2], ?_⟩
      have hda := himp heq.symm
      omega

/-- Helper: the fold underlying selectWinner returns a group member not
strictly beaten by the seed or by any folded element. -/
theorem selectWinnerAux_spec (fs : List DriveFile) :
    ∀ a : DriveFile,
      ((fs.foldl (fun best g => if betterFile g best then g else best) a) = a ∨
       (fs.foldl (fun best g => if betterFile g best then g else best) a) ∈ fs) ∧
      betterFile a (fs.foldl (fun best g => if betterFile g best then g else best) a) = false ∧
      ∀ f ∈ fs, betterFile f (fs.foldl (fun best g => if betterFile g best then g else best) a) = false := by
  induction fs with
  | nil =>
    intro a
    exact ⟨Or.inl rfl, betterFile_irrefl a, by simp⟩
  | cons g fs ih =>
    intro a
    simp only [List.foldl_cons]
    by_cases hg : betterFile g a = true
    · rw [if_pos hg]
      obtain ⟨hmem, hga, hall⟩ := ih g
      refine ⟨?_, ?_, ?_⟩
      · rcases hmem with h | h
        · exact Or.inr (by rw [h]; exact List.mem_cons_self g fs)
        · exact Or.inr (List.mem_cons_of_mem g h)
      · by_contra hc
        rw [Bool.not_eq_false] at hc
        have h2 := betterFile_trans hg hc
        rw [hga] at h2
        exact Bool.noConfusion h2
      · intro f hf
        rcases List.mem_cons.mp hf with h | h
        · rw [h]; exact hga
        · exact hall f h
    · rw [if_neg hg]
      obtain ⟨hmem, haa, hall⟩ := ih a
      have hg2 : betterFile g a = false := by
        cases hv : betterFile g a
        · rfl
        · exact absurd hv hg
      refine ⟨?_, haa, ?_⟩
      · rcases hmem with h | h
        · exact Or.inl h
        · exact Or.inr (List.mem_cons_of_mem g h)
      · intro f hf
        rcases List.mem_cons.mp hf with h | h
        · subst h
          by_contra hc
          rw [Bool.not_eq_false] at hc
          have h2 := betterFile_compose hg2 hc
          rw [haa] at h2
          exact Bool.noConfusion h2
        · exact hall f h

/-- Helper: the winner of a nonempty group is a member of the group not
strictly beaten by any member: smallest format priority, and among those
the newest modified time, the earliest such member on full ties. -/
theorem selectWinner_spec (g : List DriveFile) (w : DriveFile)
    (h : selectWinner g = some w) :
    w ∈ g ∧ ∀ f ∈ g, betterFile f w = false := by
  match g, h with
  | f :: fs, h =>
    unfold selectWinner at h
    have hw : fs.foldl (fun best g => if betterFile g best then g else best) f = w :=
      Option.some.inj h
    obtain ⟨hmem, hfa, hall⟩ := selectWinnerAux_spec fs f
    rw [hw] at hmem hfa hall
    constructor
    · rcases hmem with h2 | h2
      · rw [h2]
        exact List.mem_cons_self f fs
      · exact List.mem_cons_of_mem f h2
    · intro x hx
      rcases List.mem_cons.mp hx with h2 | h2
      · rw [h2]; exact hfa
      · exact hall x h2

/-- Helper: every collected group key is the normalized name of some
input file. -/
theorem mem_groupKeys_aux (files : List DriveFile) :
    ∀ (acc : List String) (k : String),
      k ∈ files.foldl (fun acc f =>
        let kk := normalizeDedup f.name
        if acc.contains kk then acc else acc ++ [kk]) acc →
      k ∈ acc ∨ ∃ f ∈ files, normalizeDedup f.name = k := by
  induction files with
  | nil =>
    intro acc k h
    exact Or.inl h
  | cons f fs ih =>
    intro acc k h
    simp only [List.foldl_cons] at h
    rcases ih _ k h with h2 | ⟨f2, hf2, he⟩
    · by_cases hc : acc.contains (normalizeDedup f.name) = true
      · simp only [hc, if_true] at h2
        exact Or.inl h2
      · simp only [hc, if_false, Bool.false_eq_true] at h2
        rcases List.mem_append.mp h2 with h3 | h3
        · exact Or.inl h3
        · have he2 : k = normalizeDedup f.name := by simpa using h3
          exact Or.inr ⟨f, List.mem_cons_self f fs, he2.symm⟩
    · exact Or.inr ⟨f2, List.mem_cons_of_mem f hf2, he⟩

theorem mem_groupKeys (files : List DriveFile) (k : String)
    (h : k ∈ groupKeys files) : ∃ f ∈ files, normalizeDedup f.name = k := by
  unfold groupKeys at h
  rcases mem_groupKeys_aux files [] k h with h2 | h2
  · cases h2
  · exact h2

theorem length_filterMap_of_isSome {α β : Type} (f : α → Option β) :
    ∀ l : List α, (∀ x ∈ l, (f x).isSome) → (l.filterMap f).length = l.length := by
  intro l
  induction l with
  | nil => intro _; rfl
  | cons x xs ih =>
    intro h
    have hx := h x (List.mem_cons_self x xs)
    obtain ⟨y, hy⟩ := Option.isSome_iff_exists.mp hx
    simp only [List.filterMap_cons, hy, List.length_cons]
    rw [ih (fun z hz => h z (List.mem_cons_of_mem x hz))]

theorem selectWinner_isSome (g : List DriveFile) (hne : g ≠ []) :
    (selectWinner g).isSome := by
  cases g with
  | nil => cases hne rfl
  | cons f fs => simp [selectWinner]

theorem groupOf_ne_nil (files : List DriveFile) (k : String)
    (h : k ∈ groupKeys files) : groupOf files k ≠ [] := by
  obtain ⟨f, hf, he⟩ := mem_groupKeys files k h
  intro hemp
  have hmem : f ∈ groupOf files k := by
    unfold groupOf
    rw [List.mem_filter]
    exact ⟨hf, by simp [he]⟩
  rw [hemp] at hmem
  cases hmem

/-- Helper: exactly one winner per normalized-name group. -/
theorem detectDuplicates_length (files : List DriveFile) :
    (detectDuplicates files).length = (groupKeys files).length := by
  unfold detectDuplicates
  apply length_filterMap_of_isSome
  intro k hk
  exact selectWinner_isSome _ (groupOf_ne_nil files k hk)

/-- C5: duplicate resolution is deterministic.  First part: the winner
of any normalized-name group is a member of that group that no member
strictly beats under the comparator (format priority first, newest
modified time on ties), so the winner is determined by the documented
rule.  Second part: detectDuplicates emits exactly one winner per
normalized-name group.  Third part: for the group consisting of
Report.pdf, the Report.pptx slides export and Report in the native
slide format, the native slide format wins under all six input orders,
even though it is the oldest item. -/
theorem duplicate_resolution :
    (∀ (files : List DriveFile) (k : String) (w : DriveFile),
        selectWinner (groupOf files k) = some w →
        w ∈ groupOf files k ∧ ∀ f ∈ groupOf files k, betterFile f w = false) ∧
    (∀ files : List DriveFile,
        (detectDuplicates files).length = (groupKeys files).length) ∧
    (reportPerms.all (fun g => detectDuplicates g == [reportSlides]) = true) := by
  refine ⟨?_, detectDuplicates_length, by decide⟩
  intro files k w h
  exact selectWinner_spec _ w h

/-- Witness for C5: in the concrete group, the native slide item is a
member of the report group and the pdf export does not beat it. -/
theorem duplicate_resolution_witness :
    reportSlides ∈ groupOf c5Files "report" ∧
    betterFile reportPdf reportSlides = false := by
  have h := duplicate_resolution.1 c5Files "report" reportSlides (by decide)
  exact ⟨h.1, h.2 reportPdf (by decide)⟩

/-- Helper: the NEW-file loop produces exactly one outcome per item:
successes and failures always add up to the number of items. -/
theorem processNew_counts (extract : DriveFile → Option String) (now : Nat)
    (l : List DriveFile) :
    ∀ s : ProcState,
      (l.foldl (processNewFile extract now) s).ok +
        (l.foldl (processNewFile extract now) s).fail = s.ok + s.fail + l.length := by
  induction l with
  | nil => intro s; simp
  | cons f fs ih =>
    intro s
    simp only [List.foldl_cons, List.length_cons]
    rw [ih]
    unfold processNewFile
    cases hv : indexFile extract now f <;> simp <;> omega

/-- Helper: the MODIFIED-file loop produces exactly one outcome per
item. -/
theorem processModified_counts (extract : DriveFile → Option String) (now : Nat)
    (l : List (DriveFile × PineconeDoc)) :
    ∀ s : ProcState,
      (l.foldl (processModifiedFile extract now) s).ok +
        (l.foldl (processModifiedFile extract now) s).fail = s.ok + s.fail + l.length := by
  induction l with
  | nil => intro s; simp
  | cons f fs ih =>
    intro s
    simp only [List.foldl_cons, List.length_cons]
    rw [ih]
    unfold processModifiedFile
    cases hv : indexFile extract now f.1 <;> simp <;> omega

/-- C9: per-item failure isolation and exit status.  For every
extraction collaborator (whose failures stand for any thrown per-item
extraction, embedding or write error), index state and snapshot: the
run exits 1 exactly when at least one per-item failure occurred and 0
exactly when none did, and every classified NEW and MODIFIED item is
processed to exactly one outcome (success or failure), so no failure
blocks the processing of other items. -/
theorem failure_isolation_exit (extract : DriveFile → Option String) (now : Nat)
    (index0 : List ChunkMeta) (drive : List DriveFile) :
    ((runSync extract now index0 drive).exitCode = 1 ↔
      0 < (runSync extract now index0 drive).newFailed +
          (runSync extract now index0 drive).modifiedFailed) ∧
    ((runSync extract now index0 drive).exitCode = 0 ↔
      (runSync extract now index0 drive).newFailed +
      (runSync extract now index0 drive).modifiedFailed = 0) ∧
    ((runSync extract now index0 drive).newIndexed +
      (runSync extract now index0 drive).newFailed =
      (classifyChanges (detectDuplicates (filterFiles drive))
        (loadPineconeState index0) now).newFiles.length) ∧
    ((runSync extract now index0 drive).modifiedReIndexed +
      (runSync extract now index0 drive).modifiedFailed =
      (classifyChanges (detectDuplicates (filterFiles drive))
        (loadPineconeState index0) now).modifiedFiles.length) := by
  unfold runSync
  refine ⟨?_, ?_, ?_, ?_⟩
  · simp only []
    split <;> simp <;> omega
  · simp only []
    split <;> simp <;> omega
  · have h := processNew_counts extract now
      (classifyChanges (detectDuplicates (filterFiles drive))
        (loadPineconeState index0) now).newFiles ⟨index0, 0, 0, 0, 0⟩
    simpa using h
  · have h := processModified_counts extract now
      (classifyChanges (detectDuplicates (filterFiles drive))
        (loadPineconeState index0) now).modifiedFiles
      ⟨(((classifyChanges (detectDuplicates (filterFiles drive))
        (loadPineconeState index0) now).newFiles).foldl
          (processNewFile extract now) ⟨index0, 0, 0, 0, 0⟩).idx, 0, 0, 0, 0⟩
    simpa using h

/-- Helper: the by-id component of the loader fold is the fold of the
by-id updates. -/
theorem foldl_loadStep_byId (recs : List ChunkMeta) :
    ∀ s : PineconeState,
      (recs.foldl loadStep s).byId = recs.foldl byIdUpdate s.byId := by
  induction recs with
  | nil => intro s; rfl
  | cons r rest ih =>
    intro s
    simp only [List.foldl_cons]
    rw [ih]
    rfl

/-- Helper: the by-name component of the loader fold is the fold of
the by-name updates. -/
theorem foldl_loadStep_byName (recs : List ChunkMeta) :
    ∀ s : PineconeState,
      (recs.foldl loadStep s).byName = recs.foldl byNameUpdate s.byName := by
  induction recs with
  | nil => intro s; rfl
  | cons r rest ih =>
    intro s
    simp only [List.foldl_cons]
    rw [ih]
    rfl

/-- Helper: the latest-sync component of the loader fold is the fold
of the latest updates. -/
theorem foldl_loadStep_latest (recs : List ChunkMeta) :
    ∀ s : PineconeState,
      (recs.foldl loadStep s).latest = recs.foldl latestUpdate s.latest := by
  induction recs with
  | nil => intro s; rfl
  | cons r rest ih =>
    intro s
    simp only [List.foldl_cons]
    rw [ih]
    rfl

/-- Helper: a record invisible to the maps has neither id nor name. -/
theorem keepRec_false {r : ChunkMeta} (h : keepRec r = false) :
    r.fileId = none ∧ r.fileName = none := by
  unfold keepRec at h
  constructor
  · cases hv : r.fileId
    · rfl
    · rw [hv] at h; simp at h
  · cases hv : r.fileName
    · rfl
    · rw [hv] at h; simp at h

theorem byIdUpdate_skip (b : List (String × PineconeDoc)) (r : ChunkMeta)
    (h : keepRec r = false) : byIdUpdate b r = b := by
  simp [byIdUpdate, (keepRec_false h).1]

theorem byNameUpdate_skip (b : List (String × PineconeDoc)) (r : ChunkMeta)
    (h : keepRec r = false) : byNameUpdate b r = b := by
  simp [byNameUpdate, (keepRec_false h).1, (keepRec_false h).2]

theorem foldl_byIdUpdate_filter (recs : List ChunkMeta) :
    ∀ b : List (String × PineconeDoc),
      (recs.filter keepRec).foldl byIdUpdate b = recs.foldl byIdUpdate b := by
  induction recs with
  | nil => intro b; rfl
  | cons r rest ih =>
    intro b
    cases hk : keepRec r with
    | true => simp only [List.filter_cons, hk, if_true, List.foldl_cons]; rw [ih]
    | false =>
      simp only [List.filter_cons, hk, Bool.false_eq_true, if_false, List.foldl_cons]
      rw [ih, byIdUpdate_skip b r hk]

theorem foldl_byNameUpdate_filter (recs : List ChunkMeta) :
    ∀ b : List (String × PineconeDoc),
      (recs.filter keepRec).foldl byNameUpdate b = recs.foldl byNameUpdate b := by
  induction recs with
  | nil => intro b; rfl
  | cons r rest ih =>
    intro b
    cases hk : keepRec r with
    | true => simp only [List.filter_cons, hk, if_true, List.foldl_cons]; rw [ih]
    | false =>
      simp only [List.filter_cons, hk, Bool.false_eq_true, if_false, List.foldl_cons]
      rw [ih, byNameUpdate_skip b r hk]

theorem latestUpdate_ge (acc : Option Nat) (r : ChunkMeta) (d : Nat)
    (h : acc = some d) : ∃ y, latestUpdate acc r = some y ∧ d ≤ y := by
  subst h
  cases hr : r.lastSyncDate with
  | none => exact ⟨d, by simp [latestUpdate, hr], Nat.le_refl d⟩
  | some x =>
    by_cases hlt : d < x
    · exact ⟨x, by simp [latestUpdate, hr, hlt], Nat.le_of_lt hlt⟩
    · exact ⟨d, by simp [latestUpdate, hr, hlt], Nat.le_refl d⟩

theorem latestUpdate_rec (acc : Option Nat) (r : ChunkMeta) (d : Nat)
    (h : r.lastSyncDate = some d) : ∃ y, latestUpdate acc r = some y ∧ d ≤ y := by
  cases acc with
  | none => exact ⟨d, by simp [latestUpdate, h], Nat.le_refl d⟩
  | some l =>
    by_cases hlt : l < d
    · exact ⟨d, by simp [latestUpdate, h, hlt], Nat.le_refl d⟩
    · exact ⟨l, by simp [latestUpdate, h, hlt], Nat.le_of_not_lt hlt⟩

theorem foldl_latest_ge (recs : List ChunkMeta) :
    ∀ (acc : Option Nat) (d : Nat),
      (acc = some d ∨ ∃ r ∈ recs, r.lastSyncDate = some d) →
      ∃ l, recs.foldl latestUpdate acc = some l ∧ d ≤ l := by
  induction recs with
  | nil =>
    intro acc d h
    rcases h with h | ⟨r, hr, _⟩
    · exact ⟨d, h, Nat.le_refl d⟩
    · cases hr
  | cons r rest ih =>
    intro acc d h
    simp only [List.foldl_cons]
    rcases h with h | ⟨r2, hr2, he⟩
    · obtain ⟨y, hy, hdy⟩ := latestUpdate_ge acc r d h
      obtain ⟨l, hl, hyl⟩ := ih (latestUpdate acc r) y (Or.inl hy)
      exact ⟨l, hl, Nat.le_trans hdy hyl⟩
    · rcases List.mem_cons.mp hr2 with h2 | h2
      · subst h2
        obtain ⟨y, hy, hdy⟩ := latestUpdate_rec acc r2 d he
        obtain ⟨l, hl, hyl⟩ := ih (latestUpdate acc r2) y (Or.inl hy)
        exact ⟨l, hl, Nat.le_trans hdy hyl⟩
      · exact ih (latestUpdate acc r) d (Or.inr ⟨r2, h2, he⟩)

/-- C10 (amended): chunk records with neither a document id nor a
document display name are dropped from both loader maps, so they can
never be matched or deleted; but contrary to the original claim they do
contribute to the global sync cutoff.  First part: the two maps are
unchanged when all such records are removed.  Second part: the last
sync date of every record, the nameless ones included, is a lower bound
of the computed cutoff. -/
theorem nameless_records_amended :
    (∀ recs : List ChunkMeta,
      (loadPineconeState recs).byId = (loadPineconeState (recs.filter keepRec)).byId ∧
      (loadPineconeState recs).byName = (loadPineconeState (recs.filter keepRec)).byName) ∧
    (∀ (recs : List ChunkMeta) (r : ChunkMeta) (d : Nat),
      r ∈ recs → r.lastSyncDate = some d →
      (loadPineconeState recs).latest ≠ none ∧
      d ≤ ((loadPineconeState recs).latest).getD 0) := by
  constructor
  · intro recs
    unfold loadPineconeState
    rw [foldl_loadStep_byId, foldl_loadStep_byId, foldl_loadStep_byName,
      foldl_loadStep_byName]
    exact ⟨(foldl_byIdUpdate_filter recs []).symm, (foldl_byNameUpdate_filter recs []).symm⟩
  · intro recs r d hr hd
    unfold loadPineconeState
    rw [foldl_loadStep_latest]
    obtain ⟨l, hl, hdl⟩ := foldl_latest_ge recs none d (Or.inr ⟨r, hr, hd⟩)
    rw [hl]
    exact ⟨by simp, by simpa using hdl⟩


/-- Witness for C10 (amended): the nameless record leaves the by-id map
of the loader unchanged, yet forces a cutoff of at least its sync
date. -/
theorem nameless_records_amended_witness :
    (loadPineconeState [namelessRec]).byId =
      (loadPineconeState ([namelessRec].filter keepRec)).byId ∧
    (loadPineconeState [namelessRec]).latest ≠ none ∧
    5 ≤ ((loadPineconeState [namelessRec]).latest).getD 0 := by
  have h1 := (nameless_records_amended.1 [namelessRec]).1
  have h2 := nameless_records_amended.2 [namelessRec] namelessRec 5
    (by decide) (by decide)
  exact ⟨h1, h2.1, h2.2⟩

/-- Helper: association-list lookup over an append. -/
theorem lookup_append_cat (l1 l2 : List (String × CatEntry)) (k : String) :
    (l1 ++ l2).lookup k =
      match l1.lookup k with
      | some v => some v
      | none => l2.lookup k := by
  induction l1 with
  | nil => simp [List.lookup]
  | cons e l1 ih =>
    obtain ⟨a, b⟩ := e
    cases ha : (k == a) <;> simp [List.lookup, ha, ih]

/-- Helper: bumping the entry of a key rewrites exactly that lookup. -/
theorem lookup_bumpCat_self (fid v : String) (m : List (String × CatEntry)) :
    (bumpCat fid v m).lookup fid =
      (m.lookup fid).map (fun e => { e with vectorIds := e.vectorIds ++ [v] }) := by
  induction m with
  | nil => rfl
  | cons e m ih =>
    obtain ⟨a, b⟩ := e
    cases ha : (a == fid) with
    | true =>
      have hfa : (fid == a) = true := by
        rw [beq_iff_eq] at ha ⊢
        exact ha.symm
      simp [bumpCat, List.lookup, ha, hfa]
    | false =>
      have hfa : (fid == a) = false := by
        rw [beq_eq_false_iff_ne] at ha ⊢
        exact fun h => ha h.symm
      simp only [bumpCat, List.map_cons, ha, List.lookup, hfa]
      simpa [bumpCat] using ih

/-- Helper: bumping one key leaves every other lookup unchanged. -/
theorem lookup_bumpCat_ne (fid v k : String) (hk : k ≠ fid)
    (m : List (String × CatEntry)) :
    (bumpCat fid v m).lookup k = m.lookup k := by
  induction m with
  | nil => rfl
  | cons e m ih =>
    obtain ⟨a, b⟩ := e
    cases ha : (a == fid) with
    | true =>
      have hka : (k == a) = false := by
        rw [beq_iff_eq] at ha
        rw [beq_eq_false_iff_ne, ha]
        exact hk
      simp only [bumpCat, List.map_cons, ha, List.lookup, hka]
      simpa [bumpCat] using ih
    | false =>
      cases hka : (k == a) with
      | true =>
        simp [bumpCat, List.lookup, ha, hka]
      | false =>
        simp only [bumpCat, List.map_cons, ha, List.lookup, hka]
        simpa [bumpCat] using ih

/-- Helper: a successful lookup witnesses list membership. -/
theorem lookup_mem_cat (k : String) (m : List (String × CatEntry)) (v : CatEntry)
    (h : m.lookup k = some v) : (k, v) ∈ m := by
  induction m with
  | nil => cases h
  | cons e m ih =>
    obtain ⟨a, b⟩ := e
    cases ha : (k == a) with
    | true =>
      have hka : k = a := beq_iff_eq.mp ha
      simp only [List.lookup, ha] at h
      cases h
      rw [hka]
      exact List.mem_cons_self _ _
    | false =>
      simp only [List.lookup, ha] at h
      exact List.mem_cons_of_mem _ (ih h)

/-- Helper: characterization of the getPineconeFiles fold: the vector
ids accumulated under a file id are exactly the ids of the records
carrying that file id, in order, appended to whatever the starting map
already held. -/
theorem cat_vids (fid : String) :
    ∀ (recs : List ChunkMeta) (m : List (String × CatEntry)),
      ((recs.foldl catStep m).lookup fid).map CatEntry.vectorIds =
        (match (m.lookup fid).map CatEntry.vectorIds with
        | some vs => some (vs ++ vidsOf recs fid)
        | none =>
          if recs.any (fun r => r.fileId == some fid) = true then
            some (vidsOf recs fid)
          else none) := by
  intro recs
  induction recs with
  | nil =>
    intro m
    cases hv : (m.lookup fid).map CatEntry.vectorIds <;>
      simp [vidsOf, List.foldl_nil, hv]
  | cons r rest ih =>
    intro m
    simp only [List.foldl_cons]
    rw [ih]
    cases hr : r.fileId with
    | none =>
      have hstep : catStep m r = m := by simp [catStep, hr]
      have hpred : (r.fileId == some fid) = false := by rw [hr]; rfl
      rw [hstep]
      simp [vidsOf, List.filter_cons, List.any_cons, hpred]
    | some f0 =>
      cases hf : (f0 == fid) with
      | true =>
        have hf2 : f0 = fid := beq_iff_eq.mp hf
        subst hf2
        have hpred : (r.fileId == some f0) = true := by
          rw [hr]
          exact beq_iff_eq.mpr rfl
        have hvids : vidsOf (r :: rest) f0 = r.vid :: vidsOf rest f0 := by
          simp [vidsOf, List.filter_cons, hpred]
        cases hm : m.lookup f0 with
        | some e0 =>
          have hstep : catStep m r = bumpCat f0 r.vid m := by
            simp [catStep, hr, hm]
          rw [hstep, lookup_bumpCat_self, hm]
          simp [hvids]
        | none =>
          have hstep : catStep m r =
              m ++ [(f0, ⟨r.fileName, r.modifiedDate, [r.vid]⟩)] := by
            simp [catStep, hr, hm]
          rw [hstep, lookup_append_cat, hm]
          simp only [List.lookup, beq_self_eq_true]
          have hany : (r :: rest).any (fun r => r.fileId == some f0) = true := by
            simp [List.any_cons, hpred]
          simp [hm, hany, hvids]
      | false =>
        have hf2 : f0 ≠ fid := beq_eq_false_iff_ne.mp hf
        have hpred : (r.fileId == some fid) = false := by
          rw [hr]
          show (f0 == fid) = false
          exact hf
        have hvids : vidsOf (r :: rest) fid = vidsOf rest fid := by
          simp [vidsOf, List.filter_cons, hpred]
        have hlk : (catStep m r).lookup fid = m.lookup fid := by
          unfold catStep
          rw [hr]
          cases hm : (m.lookup f0).isSome with
          | true =>
            simp only [hm, if_true]
            exact lookup_bumpCat_ne f0 r.vid fid (fun h => hf2 h.symm) m
          | false =>
            simp only [hm, Bool.false_eq_true, if_false]
            rw [lookup_append_cat]
            have hfk : (fid == f0) = false := by
              rw [beq_eq_false_iff_ne]
              exact fun h => hf2 h.symm
            cases hmk : m.lookup fid <;> simp [List.lookup, hfk, hmk]
        rw [hlk]
        simp [vidsOf, List.filter_cons, List.any_cons, hpred, hvids]


/-- Helper: the map entry of a file id lists exactly the vector ids of
all its records. -/
theorem getPineconeFiles_vids (idx : List ChunkMeta) (fid : String) (e : CatEntry)
    (h : (getPineconeFiles idx).lookup fid = some e) :
    e.vectorIds = vidsOf idx fid := by
  have hc := cat_vids fid idx []
  unfold getPineconeFiles at h
  rw [h] at hc
  simp only [List.lookup, Option.map_none, Option.map_some] at hc
  cases ha : idx.any (fun r => r.fileId == some fid) with
  | true =>
    rw [ha] at hc
    simp at hc
    exact hc
  | false =>
    rw [ha] at hc
    simp at hc

/-- Helper: a record surviving deleteRemovedFiles was in the index and
its id is in no deleted entry. -/
theorem mem_deleteRemovedFiles (deleted : List (String × CatEntry)) :
    ∀ (cur : List ChunkMeta) (r : ChunkMeta),
      r ∈ deleteRemovedFiles deleted cur →
      r ∈ cur ∧ ∀ fe ∈ deleted, fe.2.vectorIds.contains r.vid = false := by
  induction deleted with
  | nil =>
    intro cur r h
    exact ⟨h, by simp⟩
  | cons fe0 rest ih =>
    intro cur r h
    unfold deleteRemovedFiles at h ih
    simp only [List.foldl_cons] at h
    obtain ⟨h1, h2⟩ := ih _ r h
    have h3 := List.mem_filter.mp h1
    refine ⟨h3.1, ?_⟩
    intro fe hfe
    rcases List.mem_cons.mp hfe with hh | hh
    · rw [hh]
      have := h3.2
      simpa using this
    · exact h2 fe hh


/-- C2 (amended): in the catalog syncer, which resolves identity by
stable id only, every document reconstructed by its state loader whose
id no Drive file carries is listed among the deleted files of the
comparison, and after deleteRemovedFiles no chunk record of that
document remains in the index.  (The full-sync pipeline itself, per
the counterexample, performs no deletion at all; null-id records are
invisible to the catalog loader and likewise never deleted.) -/
theorem catalog_delete_amended (idx : List ChunkMeta) (drive : List DriveFile)
    (fid : String) (e : CatEntry)
    (hl : (getPineconeFiles idx).lookup fid = some e)
    (habs : drive.all (fun f => f.fid != fid) = true) :
    (fid, e) ∈ (compareFiles drive (getPineconeFiles idx)).deletedFiles ∧
    ∀ r ∈ deleteRemovedFiles
        (compareFiles drive (getPineconeFiles idx)).deletedFiles idx,
      r.fileId ≠ some fid := by
  have hmem : (fid, e) ∈ getPineconeFiles idx := lookup_mem_cat fid _ e hl
  have hnodrive : (drive.any (fun f => f.fid == fid)) = false := by
    rw [List.all_eq_true] at habs
    cases hv : drive.any (fun f => f.fid == fid) with
    | false => rfl
    | true =>
      exfalso
      rw [List.any_eq_true] at hv
      obtain ⟨f, hf, hfd⟩ := hv
      have hne := habs f hf
      rw [bne_iff_ne] at hne
      exact hne (beq_iff_eq.mp hfd)
  have hdel : (fid, e) ∈ (compareFiles drive (getPineconeFiles idx)).deletedFiles := by
    show (fid, e) ∈ (getPineconeFiles idx).filter
      (fun ke => !(drive.any (fun f => f.fid == ke.1)))
    rw [List.mem_filter]
    exact ⟨hmem, by simp [hnodrive]⟩
  refine ⟨hdel, ?_⟩
  intro r hr
  obtain ⟨hri, hall⟩ := mem_deleteRemovedFiles _ idx r hr
  intro hcon
  have hvin : r.vid ∈ e.vectorIds := by
    rw [getPineconeFiles_vids idx fid e hl]
    unfold vidsOf
    rw [List.mem_map]
    refine ⟨r, ?_, rfl⟩
    rw [List.mem_filter]
    refine ⟨hri, ?_⟩
    rw [hcon]
    exact beq_iff_eq.mpr rfl
  have hnc := hall (fid, e) hdel
  simp at hnc
  exact hnc hvin

/-- Witness for C2 (amended): the orphaned document X is listed deleted
and the index is left empty. -/
theorem catalog_delete_amended_witness :
    ("X", catEntryX) ∈ (compareFiles [] (getPineconeFiles catIdx)).deletedFiles ∧
    deleteRemovedFiles (compareFiles [] (getPineconeFiles catIdx)).deletedFiles catIdx = [] := by
  have h := catalog_delete_amended catIdx [] "X" catEntryX (by decide) (by decide)
  exact ⟨h.1, by decide⟩

/-- Helper: trimming never lengthens a string. -/
theorem length_trimChars_le (s : List Char) : (trimChars s).length ≤ s.length := by
  unfold trimChars
  rw [List.length_reverse]
  calc ((s.dropWhile isWs).reverse.dropWhile isWs).length
      ≤ (s.dropWhile isWs).reverse.length := length_dropWhile_le _ _
    _ = (s.dropWhile isWs).length := List.length_reverse _
    _ ≤ s.length := length_dropWhile_le _ _

/-- Helper: the overlap text carried into the next chunk never reaches
beyond the configured overlap: the loop only extends it while strictly
below the overlap, by one line plus its newline. -/
theorem overlapLoop_text_le (lines : List (List Char)) (ov : Nat) :
    ∀ (js accL : List Nat) (accT : List Char), accT.length ≤ ov →
      ((overlapLoop lines ov js accL accT).2).length ≤ ov := by
  intro js
  induction js with
  | nil =>
    intro accL accT h
    exact h
  | cons j rest ih =>
    intro accL accT h
    cases hg : lines.get? j with
    | none =>
      unfold overlapLoop
      rw [hg]
      exact h
    | some ln =>
      unfold overlapLoop
      rw [hg]
      dsimp only
      by_cases hcond : accT.length + ln.length < ov
      · rw [if_pos hcond]
        apply ih
        simp only [List.length_append, List.length_cons]
        omega
      · rw [if_neg hcond]
        exact h

/-- Helper: one chunker step preserves the bound B on the chunk under
construction and on every pushed chunk, for any B at least the chunk
size and at least overlap plus longest line plus one. -/
theorem chunkStep_bound (lines : List (List Char)) (cs ov L B : Nat)
    (h1 : cs ≤ B) (h2 : ov + L + 1 ≤ B)
    (line : List Char) (hline : line.length ≤ L) (st : ChunkLoopState)
    (hcc : st.currentChunk.length ≤ B)
    (hch : ∀ c ∈ st.chunks, c.text.length ≤ B) :
    (chunkStep lines cs ov st line).currentChunk.length ≤ B ∧
    ∀ c ∈ (chunkStep lines cs ov st line).chunks, c.text.length ≤ B := by
  unfold chunkStep
  dsimp only
  by_cases hpush : cs < st.currentChunk.length + (line.length + 1) ∧
      0 < st.currentChunk.length
  · rw [if_pos hpush]
    have hov := overlapLoop_text_le lines ov st.currentLines.reverse [] []
      (by simp)
    constructor
    · simp only [List.length_append, List.length_cons, List.length_nil]
      omega
    · intro c hc
      rcases List.mem_append.mp hc with hm | hm
      · exact hch c hm
      · have hc2 : c = ⟨trimChars st.currentChunk, st.currentLines.headD 1,
            (st.currentLines.getLast?).getD 1⟩ := by simpa using hm
        rw [hc2]
        have ht := length_trimChars_le st.currentChunk
        exact le_trans ht hcc
  · rw [if_neg hpush]
    constructor
    · simp only [List.length_append, List.length_cons, List.length_nil]
      push_neg at hpush
      by_cases hz : st.currentChunk.length = 0
      · omega
      · have hle : st.currentChunk.length + (line.length + 1) ≤ cs := by
          have := hpush
          omega
        omega
    · intro c hc
      exact hch c hc

/-- Helper: the chunker loop preserves the bound B throughout. -/
theorem chunkFold_bound (lines : List (List Char)) (cs ov L B : Nat)
    (h1 : cs ≤ B) (h2 : ov + L + 1 ≤ B) :
    ∀ (rem : List (List Char)) (st : ChunkLoopState),
      (∀ l ∈ rem, l.length ≤ L) →
      st.currentChunk.length ≤ B →
      (∀ c ∈ st.chunks, c.text.length ≤ B) →
      ((rem.foldl (chunkStep lines cs ov) st).currentChunk.length ≤ B) ∧
      (∀ c ∈ (rem.foldl (chunkStep lines cs ov) st).chunks,
        c.text.length ≤ B) := by
  intro rem
  induction rem with
  | nil =>
    intro st _ hcc hch
    exact ⟨hcc, hch⟩
  | cons line rest ih =>
    intro st hL hcc hch
    simp only [List.foldl_cons]
    have hline : line.length ≤ L := hL line (List.mem_cons_self _ _)
    obtain ⟨hc1, hc2⟩ := chunkStep_bound lines cs ov L B h1 h2 line hline st hcc hch
    exact ih _ (fun l hl => hL l (List.mem_cons_of_mem _ hl)) hc1 hc2

/-- C7 (amended): the line chunker guarantees a weaker bound than the
claimed contract.  For every text whose lines are each at most L
characters, every produced chunk has length at most any B with
chunkSize ≤ B and overlap + L + 1 ≤ B; in particular at most
max(chunkSize, overlap + L + 1), so a chunk exceeds the maximum chunk
size only when a single line does (the counterexample shows the
original at-most-chunkSize and at-least-overlap-sharing contract both
fail). -/
theorem chunk_size_amended (text : List Char) (cs ov L B : Nat)
    (hL : ∀ l ∈ splitLines text, l.length ≤ L)
    (h1 : cs ≤ B) (h2 : ov + L + 1 ≤ B) :
    ∀ c ∈ chunkTextL text cs ov, c.text.length ≤ B := by
  unfold chunkTextL
  have h := chunkFold_bound (splitLines text) cs ov L B h1 h2 (splitLines text)
    ⟨[], [], []⟩ hL (by simp) (by simp)
  intro c hc
  by_cases hemp : (trimChars ((splitLines text).foldl
      (chunkStep (splitLines text) cs ov) ⟨[], [], []⟩).currentChunk).isEmpty = true
  · rw [if_pos hemp] at hc
    exact h.2 c hc
  · rw [if_neg hemp] at hc
    rcases List.mem_append.mp hc with hm | hm
    · exact h.2 c hm
    · have hc2 : c.text = trimChars ((splitLines text).foldl
          (chunkStep (splitLines text) cs ov) ⟨[], [], []⟩).currentChunk := by
        have hs := List.mem_singleton.mp hm
        rw [hs]
      rw [hc2]
      exact le_trans (length_trimChars_le _) h.1

/-- Witness for C7 (amended): on a two-line text with lines of length
two, the produced chunk is within the 1000-character bound. -/
theorem chunk_size_amended_witness :
    c7wChunk ∈ chunkTextL c7wText 1000 200 ∧ c7wChunk.text.length ≤ 1000 := by
  have h := chunk_size_amended c7wText 1000 200 2 1000 (by decide) (by decide)
    (by decide)
  exact ⟨by decide, h c7wChunk (by decide)⟩

end Sally
